import Mathlib

/-
A shallow embedding of autopartial.py.

The module wraps a function so that calling it with placeholder arguments
(instances of the class _Arg, carrying an integer position or a string key)
returns a deferred callable instead of invoking the function; invoking the
deferred callable resolves each captured placeholder against the new call's
arguments and then dispatches to the wrapped function.

Python values that can appear as arguments are modelled by the inductive
type Val; a placeholder _Arg(index) is the constructor Val.arg, whose key is
an integer position (Sum.inl) or a string keyword (Sum.inr), exactly the two
ways the module constructs them (_0_ ... _9_ and _kw_).  A wrapped callable
is modelled by the Target it closes over: either the user's base function, or
the resolution closure new_f together with the positional and keyword
arguments it captured (source lines 46-59).  Calling a wrapped callable is
the function callWrapped (the body of wrapped, lines 42-62); calling a raw
target is callTarget (line 62 for the base function, the body of new_f,
lines 47-58, for a closure).  Errors are explicit: a failed dict lookup in
_Arg.get_value is Err.keyError, any error raised by the user's own function
is carried as Err.userError.
-/

/-- The index carried by an _Arg: an integer position or a string keyword. -/
abbrev Key : Type := Nat ⊕ String

/-- Python values as far as this module inspects them: the only structure the
module ever looks at is whether a value is an instance of _Arg (Val.arg);
ints, strings, tuples and dicts are carried opaquely and let us express
nesting (a placeholder inside a container is NOT a top-level placeholder). -/
inductive Val : Type where
  | int : Int → Val
  | str : String → Val
  | tup : List Val → Val
  | dict : List (String × Val) → Val
  | arg : Key → Val

/-- A keyword-argument mapping, in iteration order, keys unique in any state
reachable from a Python call (** packing builds a dict). -/
abbrev KwArgs : Type := List (String × Val)

/-- The mixed-key dict all_args, in insertion order. -/
abbrev Dict : Type := List (Key × Val)

/-- Errors: a missing-key lookup in _Arg.get_value, or any error the wrapped
user function itself raises. -/
inductive Err : Type where
  | keyError : Key → Err
  | userError : String → Err
  deriving DecidableEq

/-- A user (base) function: receives positional and keyword arguments,
returns a value or raises. -/
abbrev BaseFn : Type := List Val → KwArgs → Except Err Val

/-- isinstance(x, _Arg) -/
def isArg : Val → Bool
  | .arg _ => true
  | _ => false

/-- Source lines 43-44: any([isinstance(arg, _Arg) for arg in orig_args]) or
any([isinstance(kwarg, _Arg) for kwarg in orig_kwargs.values()]). -/
def hasPlaceholder (args : List Val) (kwargs : KwArgs) : Bool :=
  args.any isArg || kwargs.any (fun p => isArg p.2)

/-- enumerate(args) starting at i, as entries of the mixed-key dict. -/
def enumArgs : Nat → List Val → Dict
  | _, [] => []
  | i, a :: rest => (Sum.inl i, a) :: enumArgs (i + 1) rest

/-- Source lines 48-49: all_args = kwargs.copy(); all_args.update(enumerate(args)).
The copied kwargs hold only string keys and the update only integer keys, so
the update overwrites nothing and the dict is the disjoint union, modelled as
an association list. -/
def all_args (args : List Val) (kwargs : KwArgs) : Dict :=
  kwargs.map (fun p => (Sum.inr p.1, p.2)) ++ enumArgs 0 args

/-- Lookup in the mixed-key dict (keys are unique, so first match is the
dict's entry). -/
def dictGet (k : Key) : Dict → Option Val
  | [] => none
  | (k1, v) :: rest => if k = k1 then some v else dictGet k rest

/-- Source lines 34-35: _Arg.get_value(self, args) = args[self.index]; a
missing key raises KeyError. -/
def get_value (index : Key) (args : Dict) : Except Err Val :=
  match dictGet index args with
  | some v => .ok v
  | none => .error (.keyError index)

/-- The conditional of the comprehensions on lines 51 and 55:
orig_arg.get_value(all_args) if isinstance(orig_arg, _Arg) else orig_arg. -/
def substArg (m : Dict) (v : Val) : Except Err Val :=
  match v with
  | .arg k => get_value k m
  | v => .ok v

/-- Source lines 50-53: the list comprehension building new_args, evaluated
left to right, stopping at the first lookup error. -/
def resolveArgs (m : Dict) : List Val → Except Err (List Val)
  | [] => .ok []
  | a :: rest =>
    match substArg m a with
    | .error e => .error e
    | .ok v =>
      match resolveArgs m rest with
      | .error e => .error e
      | .ok vs => .ok (v :: vs)

/-- Source lines 54-57: the dict comprehension building new_kwargs, keys kept
unchanged, values substituted, in iteration order. -/
def resolveKwargs (m : Dict) : KwArgs → Except Err KwArgs
  | [] => .ok []
  | (s, v) :: rest =>
    match substArg m v with
    | .error e => .error e
    | .ok rv =>
      match resolveKwargs m rest with
      | .error e => .error e
      | .ok rs => .ok ((s, rv) :: rs)

/-- What a wrapped callable closes over: the user's base function, or the
resolution closure new_f with its captured target and captured arguments
(a deferred callable always re-wraps through autopartial, so every callable
the module hands out is `wrapped` around one of these). -/
inductive Target : Type where
  | base : BaseFn → Target
  | closure : Target → List Val → KwArgs → Target

/-- Calling a raw target.  For a base function this is f(*args, **kwargs)
(line 62 / line 58 at the bottom of a chain).  For the closure new_f this is
its body, lines 47-58: build all_args from the incoming call, substitute the
captured positional and keyword arguments, then call the captured f. -/
def callTarget : Target → List Val → KwArgs → Except Err Val
  | .base f, args, kwargs => f args kwargs
  | .closure f origArgs origKwargs, args, kwargs =>
    match resolveArgs (all_args args kwargs) origArgs with
    | .error e => .error e
    | .ok ra =>
      match resolveKwargs (all_args args kwargs) origKwargs with
      | .error e => .error e
      | .ok rk => callTarget f ra rk

/-- The result of calling a wrapped callable: a plain value, or a deferred
wrapped callable (identified by the target it wraps). -/
inductive Res : Type where
  | val : Val → Res
  | deferred : Target → Res

/-- Source lines 42-62, the body of wrapped: if any top-level positional
argument or keyword value is an _Arg, return (without calling the target) the
new_f closure re-wrapped through autopartial; otherwise call the target
directly and return its result, errors propagating unchanged. -/
def callWrapped (t : Target) (orig_args : List Val) (orig_kwargs : KwArgs) :
    Except Err Res :=
  if hasPlaceholder orig_args orig_kwargs then
    .ok (.deferred (.closure t orig_args orig_kwargs))
  else
    match callTarget t orig_args orig_kwargs with
    | .ok v => .ok (.val v)
    | .error e => .error e

/-- Source line 40: decorating f yields the wrapped callable around f. -/
def autopartial (f : BaseFn) : Target := .base f

/-- The body of the inner function new_f (source lines 47-58), translated
statement by statement and threading its closed-over environment
(f, orig_args, orig_kwargs) through explicitly, so that its effect on the
captured state is part of the result: line 48 copies the incoming kwargs
into the fresh dict all_args, line 49 updates that fresh copy with the
enumerated incoming args, lines 50-53 build the fresh list new_args by a
comprehension reading orig_args, lines 54-57 build the fresh dict new_kwargs
reading orig_kwargs, line 58 calls f on the fresh values.  No statement of
the body assigns to the closed-over variables, so the environment component
of the result is the incoming environment. -/
def new_f (f : Target) (orig_args : List Val) (orig_kwargs : KwArgs)
    (args : List Val) (kwargs : KwArgs) :
    Except Err Val × (Target × List Val × KwArgs) :=
  let m : Dict := all_args args kwargs
  let result : Except Err Val :=
    match resolveArgs m orig_args with
    | .error e => .error e
    | .ok ra =>
      match resolveKwargs m orig_kwargs with
      | .error e => .error e
      | .ok rk => callTarget f ra rk
  (result, (f, orig_args, orig_kwargs))

/- Spec-side definitions, written from the words of the specification
(section 4.1, deferral path), to be compared with the code-side functions
above. -/

/-- Positional lookup: the value at 0-based position n among the new call's
positional arguments, if covered. -/
def posGet (n : Nat) : List Val → Option Val
  | [] => none
  | a :: rest =>
    match n with
    | 0 => some a
    | m + 1 => posGet m rest

/-- Keyword lookup among the new call's keyword arguments. -/
def kwGet (s : String) : KwArgs → Option Val
  | [] => none
  | (s1, v) :: rest => if s = s1 then some v else kwGet s rest

/-- Spec 4.1 step a, in the spec's words: the binding mapping contains every
element of new_args under its 0-based integer position and every entry of
new_kwargs under its string key. -/
def spec_bindingMapping (new_args : List Val) (new_kwargs : KwArgs) :
    Key → Option Val
  | .inl n => posGet n new_args
  | .inr s => kwGet s new_kwargs

/-- Spec 4.1 step b, in the spec's words: a Placeholder is replaced by the
lookup of its key in the binding mapping (a missing binding is an error), any
other element is kept unchanged. -/
def spec_substOne (b : Key → Option Val) (v : Val) : Except Err Val :=
  match v with
  | .arg k =>
    match b k with
    | some x => .ok x
    | none => .error (.keyError k)
  | v => .ok v

/-- Spec 4.1 step b applied across the captured positional arguments. -/
def spec_resolveArgs (b : Key → Option Val) : List Val → Except Err (List Val)
  | [] => .ok []
  | a :: rest =>
    match spec_substOne b a with
    | .error e => .error e
    | .ok v =>
      match spec_resolveArgs b rest with
      | .error e => .error e
      | .ok vs => .ok (v :: vs)

/-- Spec 4.1 step c: the same substitution across the captured keyword
values, keys unchanged. -/
def spec_resolveKwargs (b : Key → Option Val) : KwArgs → Except Err KwArgs
  | [] => .ok []
  | (s, v) :: rest =>
    match spec_substOne b v with
    | .error e => .error e
    | .ok rv =>
      match spec_resolveKwargs b rest with
      | .error e => .error e
      | .ok rs => .ok ((s, rv) :: rs)

/-- Does the binding dict cover every placeholder among these values? -/
def argBound (m : Dict) (v : Val) : Bool :=
  match v with
  | .arg k => (dictGet k m).isSome
  | _ => true

/-- Every captured placeholder, positional or keyword, is covered by m. -/
def allBound (m : Dict) (A : List Val) (K : KwArgs) : Bool :=
  A.all (argBound m) && K.all (fun p => argBound m p.2)

/- Concrete functions used by witnesses: the test-suite function returning
its raw arguments (lines 76-79), the power function from the module doc
(lines 9-11), and a function that always raises. -/

/-- The test function f of the repository's test class: returns (args, kwargs)
as a value. -/
def rawReturn : BaseFn := fun args kwargs => .ok (.tup [.tup args, .dict kwargs])

/-- power(a, b) = a ** b from the module docstring, raising a TypeError-like
error on any other argument shape. -/
def power : BaseFn := fun args kwargs =>
  match args, kwargs with
  | [.int a, .int b], [] => .ok (.int (a ^ b.toNat))
  | _, _ => .error (.userError "TypeError")

/-- A function that raises unconditionally. -/
def alwaysBoom : BaseFn := fun _ _ => .error (.userError "boom")

/- Helper lemmas about the binding dict and resolution. -/

theorem dictGet_append (k : Key) (l1 l2 : Dict) :
    dictGet k (l1 ++ l2) =
      match dictGet k l1 with
      | some v => some v
      | none => dictGet k l2 := by
  induction l1 with
  | nil => simp [dictGet]
  | cons p rest ih =>
    obtain ⟨k1, v⟩ := p
    by_cases h : k = k1 <;> simp [dictGet, h, ih]

theorem dictGet_enumArgs_inr (s : String) :
    ∀ (args : List Val) (i : Nat),
    dictGet (Sum.inr s) (enumArgs i args) = none := by
  intro args
  induction args with
  | nil => intro i; rfl
  | cons a rest ih => intro i; simp [enumArgs, dictGet, ih]

theorem dictGet_enumArgs_inl :
    ∀ (args : List Val) (i n : Nat),
    dictGet (Sum.inl (i + n)) (enumArgs i args) = posGet n args := by
  intro args
  induction args with
  | nil => intro i n; cases n <;> rfl
  | cons a rest ih =>
    intro i n
    cases n with
    | zero => simp [enumArgs, dictGet, posGet]
    | succ m =>
      have hne : (Sum.inl (i + (m + 1)) : Key) ≠ Sum.inl i := by
        simp only [ne_eq, Sum.inl.injEq]
        omega
      have h1 : dictGet (Sum.inl (i + (m + 1))) (enumArgs i (a :: rest)) =
          dictGet (Sum.inl (i + (m + 1))) (enumArgs (i + 1) rest) := by
        simp [enumArgs, dictGet, hne]
      rw [h1, show i + (m + 1) = (i + 1) + m from by omega, ih (i + 1) m]
      rfl

theorem dictGet_kwMap_inl (n : Nat) :
    ∀ (kwargs : KwArgs),
    dictGet (Sum.inl n) (kwargs.map (fun p => (Sum.inr p.1, p.2))) = none := by
  intro kwargs
  induction kwargs with
  | nil => rfl
  | cons p rest ih => simp [dictGet, ih]

theorem dictGet_kwMap_inr (s : String) :
    ∀ (kwargs : KwArgs),
    dictGet (Sum.inr s) (kwargs.map (fun p => (Sum.inr p.1, p.2))) = kwGet s kwargs := by
  intro kwargs
  induction kwargs with
  | nil => rfl
  | cons p rest ih =>
    obtain ⟨s1, v⟩ := p
    by_cases h : s = s1 <;> simp [dictGet, kwGet, h, ih]

/-- The dict the code builds on lines 48-49 and the binding mapping described
by the spec agree on every key. -/
theorem dictGet_all_args (nargs : List Val) (nkw : KwArgs) (k : Key) :
    dictGet k (all_args nargs nkw) = spec_bindingMapping nargs nkw k := by
  cases k with
  | inl n =>
    rw [all_args, dictGet_append, dictGet_kwMap_inl]
    have h := dictGet_enumArgs_inl nargs 0 n
    rw [Nat.zero_add] at h
    rw [h]
    rfl
  | inr s =>
    rw [all_args, dictGet_append, dictGet_kwMap_inr]
    cases h : kwGet s nkw with
    | none => simp [spec_bindingMapping, h, dictGet_enumArgs_inr]
    | some v => simp [spec_bindingMapping, h]

theorem substArg_eq_spec (nargs : List Val) (nkw : KwArgs) (v : Val) :
    substArg (all_args nargs nkw) v =
      spec_substOne (spec_bindingMapping nargs nkw) v := by
  cases v with
  | arg k =>
    simp only [substArg, spec_substOne, get_value, dictGet_all_args]
  | int a => rfl
  | str a => rfl
  | tup a => rfl
  | dict a => rfl

theorem resolveArgs_eq_spec (nargs : List Val) (nkw : KwArgs) :
    ∀ (A : List Val),
    resolveArgs (all_args nargs nkw) A =
      spec_resolveArgs (spec_bindingMapping nargs nkw) A := by
  intro A
  induction A with
  | nil => rfl
  | cons a rest ih =>
    simp only [resolveArgs, spec_resolveArgs, substArg_eq_spec, ih]

theorem resolveKwargs_eq_spec (nargs : List Val) (nkw : KwArgs) :
    ∀ (K : KwArgs),
    resolveKwargs (all_args nargs nkw) K =
      spec_resolveKwargs (spec_bindingMapping nargs nkw) K := by
  intro K
  induction K with
  | nil => rfl
  | cons p rest ih =>
    obtain ⟨s, v⟩ := p
    simp only [resolveKwargs, spec_resolveKwargs, substArg_eq_spec, ih]

theorem substArg_ok_of_argBound (m : Dict) (v : Val)
    (h : argBound m v = true) : ∃ w, substArg m v = .ok w := by
  cases v with
  | arg k =>
    cases hd : dictGet k m with
    | none => simp [argBound, hd] at h
    | some w => exact ⟨w, by simp [substArg, get_value, hd]⟩
  | int a => exact ⟨_, rfl⟩
  | str a => exact ⟨_, rfl⟩
  | tup a => exact ⟨_, rfl⟩
  | dict a => exact ⟨_, rfl⟩

theorem substArg_error_of_not_argBound (m : Dict) (v : Val)
    (h : argBound m v = false) :
    ∃ k, substArg m v = .error (.keyError k) := by
  cases v with
  | arg k =>
    cases hd : dictGet k m with
    | none => exact ⟨k, by simp [substArg, get_value, hd]⟩
    | some w => simp [argBound, hd] at h
  | int a => simp [argBound] at h
  | str a => simp [argBound] at h
  | tup a => simp [argBound] at h
  | dict a => simp [argBound] at h

theorem resolveArgs_ok_of_all (m : Dict) :
    ∀ (A : List Val), A.all (argBound m) = true →
    ∃ ra, resolveArgs m A = .ok ra ∧ ra.length = A.length := by
  intro A
  induction A with
  | nil => intro _; exact ⟨[], rfl, rfl⟩
  | cons a rest ih =>
    intro h
    simp only [List.all_cons, Bool.and_eq_true] at h
    obtain ⟨w, hw⟩ := substArg_ok_of_argBound m a h.1
    obtain ⟨ra, hra, hlen⟩ := ih h.2
    exact ⟨w :: ra, by simp [resolveArgs, hw, hra], by simp [hlen]⟩

theorem resolveKwargs_ok_of_all (m : Dict) :
    ∀ (K : KwArgs), K.all (fun p => argBound m p.2) = true →
    ∃ rk, resolveKwargs m K = .ok rk ∧ rk.map Prod.fst = K.map Prod.fst := by
  intro K
  induction K with
  | nil => intro _; exact ⟨[], rfl, rfl⟩
  | cons p rest ih =>
    obtain ⟨s, v⟩ := p
    intro h
    simp only [List.all_cons, Bool.and_eq_true] at h
    obtain ⟨w, hw⟩ := substArg_ok_of_argBound m v h.1
    obtain ⟨rk, hrk, hkeys⟩ := ih h.2
    exact ⟨(s, w) :: rk, by simp [resolveKwargs, hw, hrk], by simp [hkeys]⟩

theorem resolveArgs_error_of_not_all (m : Dict) :
    ∀ (A : List Val), A.all (argBound m) = false →
    ∃ k, resolveArgs m A = .error (.keyError k) := by
  intro A
  induction A with
  | nil => intro h; simp at h
  | cons a rest ih =>
    intro h
    cases hb : argBound m a with
    | false =>
      obtain ⟨k, hk⟩ := substArg_error_of_not_argBound m a hb
      exact ⟨k, by simp [resolveArgs, hk]⟩
    | true =>
      have hrest : rest.all (argBound m) = false := by
        simp only [List.all_cons, hb, Bool.true_and] at h
        exact h
      obtain ⟨w, hw⟩ := substArg_ok_of_argBound m a hb
      obtain ⟨k, hk⟩ := ih hrest
      exact ⟨k, by simp [resolveArgs, hw, hk]⟩

theorem resolveKwargs_error_of_not_all (m : Dict) :
    ∀ (K : KwArgs), K.all (fun p => argBound m p.2) = false →
    ∃ k, resolveKwargs m K = .error (.keyError k) := by
  intro K
  induction K with
  | nil => intro h; simp at h
  | cons p rest ih =>
    obtain ⟨s, v⟩ := p
    intro h
    cases hb : argBound m v with
    | false =>
      obtain ⟨k, hk⟩ := substArg_error_of_not_argBound m v hb
      exact ⟨k, by simp [resolveKwargs, hk]⟩
    | true =>
      have hrest : rest.all (fun p => argBound m p.2) = false := by
        simp only [List.all_cons, hb, Bool.true_and] at h
        exact h
      obtain ⟨w, hw⟩ := substArg_ok_of_argBound m v hb
      obtain ⟨k, hk⟩ := ih hrest
      exact ⟨k, by simp [resolveKwargs, hw, hk]⟩

theorem resolveArgs_posGet (m : Dict) :
    ∀ (A ra : List Val), resolveArgs m A = .ok ra →
    ∀ (i : Nat) (a : Val), posGet i A = some a →
    ∃ v, substArg m a = .ok v ∧ posGet i ra = some v := by
  intro A
  induction A with
  | nil =>
    intro ra _ i a hp
    cases i <;> simp [posGet] at hp
  | cons a0 rest ih =>
    intro ra hra i a hp
    cases h0 : substArg m a0 with
    | error e => simp [resolveArgs, h0] at hra
    | ok v0 =>
      cases h1 : resolveArgs m rest with
      | error e => simp [resolveArgs, h0, h1] at hra
      | ok vs =>
        have hra2 : ra = v0 :: vs := by
          simp [resolveArgs, h0, h1] at hra
          exact hra.symm
        subst hra2
        cases i with
        | zero =>
          have ha : a = a0 := by simpa [posGet] using hp.symm
          subst ha
          exact ⟨v0, h0, by simp [posGet]⟩
        | succ j =>
          have hp2 : posGet j rest = some a := by simpa [posGet] using hp
          obtain ⟨v, hv, hg⟩ := ih vs h1 j a hp2
          exact ⟨v, hv, by simpa [posGet] using hg⟩

theorem resolveKwargs_kwGet (m : Dict) :
    ∀ (K rk : KwArgs), resolveKwargs m K = .ok rk →
    ∀ (s : String) (v : Val), kwGet s K = some v →
    ∃ w, substArg m v = .ok w ∧ kwGet s rk = some w := by
  intro K
  induction K with
  | nil =>
    intro rk _ s v hp
    simp [kwGet] at hp
  | cons p rest ih =>
    obtain ⟨s0, v0⟩ := p
    intro rk hrk s v hp
    cases h0 : substArg m v0 with
    | error e => simp [resolveKwargs, h0] at hrk
    | ok w0 =>
      cases h1 : resolveKwargs m rest with
      | error e => simp [resolveKwargs, h0, h1] at hrk
      | ok ws =>
        have hrk2 : rk = (s0, w0) :: ws := by
          simp [resolveKwargs, h0, h1] at hrk
          exact hrk.symm
        subst hrk2
        by_cases hs : s = s0
        · subst hs
          have hv : v = v0 := by simpa [kwGet] using hp.symm
          subst hv
          exact ⟨w0, h0, by simp [kwGet]⟩
        · have hp2 : kwGet s rest = some v := by simpa [kwGet, hs] using hp
          obtain ⟨w, hw, hg⟩ := ih ws h1 s v hp2
          exact ⟨w, hw, by simpa [kwGet, hs] using hg⟩

/- Claim theorems. -/

/-- C1: a deferred callable, produced by a call whose arguments contain a
placeholder, computes its result on a later invocation with concrete
arguments exactly as the spec describes: the binding mapping holds every new
positional argument under its 0-based integer position and every new keyword
argument under its string key (second conjunct: the dict the code builds on
lines 48-49 agrees with that mapping on every key); each captured placeholder
is replaced by the lookup of its key in that mapping while non-placeholder
positional elements and all keyword keys stay unchanged; and the target is
invoked on the resolved arguments, its result (or error) returned. -/
theorem C1_deferred_resolution (t : Target) (A : List Val) (K : KwArgs)
    (nargs : List Val) (nkw : KwArgs)
    (hdef : hasPlaceholder A K = true)
    (hconc : hasPlaceholder nargs nkw = false) :
    callWrapped t A K = .ok (.deferred (.closure t A K)) ∧
    (∀ k, dictGet k (all_args nargs nkw) = spec_bindingMapping nargs nkw k) ∧
    callWrapped (.closure t A K) nargs nkw =
      (match spec_resolveArgs (spec_bindingMapping nargs nkw) A with
       | .error e => .error e
       | .ok ra =>
         match spec_resolveKwargs (spec_bindingMapping nargs nkw) K with
         | .error e => .error e
         | .ok rk =>
           match callTarget t ra rk with
           | .ok v => .ok (.val v)
           | .error e => .error e) := by
  refine ⟨by simp [callWrapped, hdef], fun k => dictGet_all_args nargs nkw k, ?_⟩
  rw [callWrapped]
  rw [hconc]
  show (match callTarget (.closure t A K) nargs nkw with
        | .ok v => Except.ok (Res.val v)
        | .error e => Except.error e) = _
  rw [callTarget]
  rw [resolveArgs_eq_spec, resolveKwargs_eq_spec]
  cases h1 : spec_resolveArgs (spec_bindingMapping nargs nkw) A with
  | error e => rfl
  | ok ra =>
    cases h2 : spec_resolveKwargs (spec_bindingMapping nargs nkw) K with
    | error e => rfl
    | ok rk => rfl

/-- C1 witness: the deferred callable from rawReturn(_0_, 2, b=_3_) invoked
with (7, 8, 9, 10) behaves as the spec's resolution algorithm computes. -/
theorem C1_witness :
    callWrapped ( autopartial rawReturn)
        [Val.arg (Sum.inl 0), Val.int 2] [(("b"), Val.arg (Sum.inl 3))] =
      .ok (.deferred (.closure ( autopartial rawReturn)
        [Val.arg (Sum.inl 0), Val.int 2] [(("b"), Val.arg (Sum.inl 3))])) ∧
    (∀ k, dictGet k (all_args [Val.int 7, Val.int 8, Val.int 9, Val.int 10] []) =
      spec_bindingMapping [Val.int 7, Val.int 8, Val.int 9, Val.int 10] [] k) ∧
    callWrapped (.closure ( autopartial rawReturn)
        [Val.arg (Sum.inl 0), Val.int 2] [(("b"), Val.arg (Sum.inl 3))])
        [Val.int 7, Val.int 8, Val.int 9, Val.int 10] [] =
      (match spec_resolveArgs
          (spec_bindingMapping [Val.int 7, Val.int 8, Val.int 9, Val.int 10] [])
          [Val.arg (Sum.inl 0), Val.int 2] with
       | .error e => .error e
       | .ok ra =>
         match spec_resolveKwargs
            (spec_bindingMapping [Val.int 7, Val.int 8, Val.int 9, Val.int 10] [])
            [(("b"), Val.arg (Sum.inl 3))] with
         | .error e => .error e
         | .ok rk =>
           match callTarget ( autopartial rawReturn) ra rk with
           | .ok v => .ok (.val v)
           | .error e => .error e) :=
  C1_deferred_resolution ( autopartial rawReturn)
    [Val.arg (Sum.inl 0), Val.int 2] [(("b"), Val.arg (Sum.inl 3))]
    [Val.int 7, Val.int 8, Val.int 9, Val.int 10] [] (by rfl) (by rfl)

/-- C2: with no placeholder among the arguments, the wrapped function returns
exactly the underlying function applied to the same arguments, any error
propagating unmodified (Except.map preserves the error branch). -/
theorem C2_passthrough (f : BaseFn) (args : List Val) (kwargs : KwArgs)
    (h : hasPlaceholder args kwargs = false) :
    callWrapped ( autopartial f) args kwargs = (f args kwargs).map Res.val := by
  rw [callWrapped, h]
  show (match callTarget ( autopartial f) args kwargs with
        | .ok v => Except.ok (Res.val v)
        | .error e => Except.error e) = _
  cases hr : f args kwargs with
  | ok v => simp [callTarget, autopartial, hr, Except.map]
  | error e => simp [callTarget, autopartial, hr, Except.map]

/-- C2 witness: a concrete placeholder-free call passes straight through. -/
theorem C2_witness :
    callWrapped ( autopartial rawReturn)
        [Val.int 1, Val.int 2] [(("a"), Val.int 3)] =
      (rawReturn [Val.int 1, Val.int 2] [(("a"), Val.int 3)]).map Res.val :=
  C2_passthrough rawReturn [Val.int 1, Val.int 2] [(("a"), Val.int 3)] (by rfl)

/-- C3: a call with a placeholder never invokes the target (the result is
independent of what the target does, including a target that always raises)
and returns a deferred callable that is itself wrapped, so a further
placeholder call again defers instead of executing the original target. -/
theorem C3_deferral_no_invoke (t : Target) (A : List Val) (K : KwArgs)
    (A2 : List Val) (K2 : KwArgs)
    (h1 : hasPlaceholder A K = true) (h2 : hasPlaceholder A2 K2 = true) :
    callWrapped t A K = .ok (.deferred (.closure t A K)) ∧
    callWrapped (.closure t A K) A2 K2 =
      .ok (.deferred (.closure (.closure t A K) A2 K2)) := by
  constructor
  · simp [callWrapped, h1]
  · simp [callWrapped, h2]

/-- C3 witness: even when the target raises on every invocation, both the
first placeholder call and a chained second placeholder call succeed with a
deferred callable, so the target was never executed. -/
theorem C3_witness :
    callWrapped ( autopartial alwaysBoom) [Val.arg (Sum.inl 0)] [] =
      .ok (.deferred (.closure ( autopartial alwaysBoom)
        [Val.arg (Sum.inl 0)] [])) ∧
    callWrapped (.closure ( autopartial alwaysBoom) [Val.arg (Sum.inl 0)] [])
        [Val.arg (Sum.inl 1)] [] =
      .ok (.deferred (.closure
        (.closure ( autopartial alwaysBoom) [Val.arg (Sum.inl 0)] [])
        [Val.arg (Sum.inl 1)] [])) :=
  C3_deferral_no_invoke ( autopartial alwaysBoom) [Val.arg (Sum.inl 0)] []
    [Val.arg (Sum.inl 1)] [] (by rfl) (by rfl)

/-- C4: if some captured placeholder is not covered by the new call's
arguments — a positional index beyond the supplied positional arguments or a
keyword key absent from the supplied keyword arguments, i.e. the binding dict
does not bind every captured placeholder — the invocation raises a missing-key
error (Err.keyError), for every target alike: no default is substituted and
the target's own behavior never reaches the caller. -/
theorem C4_missing_binding (t : Target) (A : List Val) (K : KwArgs)
    (nargs : List Val) (nkw : KwArgs)
    (hconc : hasPlaceholder nargs nkw = false)
    (hmiss : allBound (all_args nargs nkw) A K = false) :
    ∃ k, callWrapped (.closure t A K) nargs nkw = .error (.keyError k) := by
  rw [callWrapped, hconc]
  show ∃ k, (match callTarget (.closure t A K) nargs nkw with
             | .ok v => Except.ok (Res.val v)
             | .error e => Except.error e) = Except.error (.keyError k)
  rw [callTarget]
  cases hA : (A.all (argBound (all_args nargs nkw))) with
  | false =>
    obtain ⟨k, hk⟩ := resolveArgs_error_of_not_all (all_args nargs nkw) A hA
    exact ⟨k, by rw [hk]⟩
  | true =>
    have hK : K.all (fun p => argBound (all_args nargs nkw) p.2) = false := by
      simp only [allBound, hA, Bool.true_and] at hmiss
      exact hmiss
    obtain ⟨ra, hra, _⟩ := resolveArgs_ok_of_all (all_args nargs nkw) A hA
    obtain ⟨k, hk⟩ := resolveKwargs_error_of_not_all (all_args nargs nkw) K hK
    exact ⟨k, by rw [hra, hk]⟩

/-- C4 witness: the captured named placeholder _kw_('q') with the subsequent
call omitting q raises a missing-key error. -/
theorem C4_witness :
    ∃ k, callWrapped
        (.closure ( autopartial rawReturn) [Val.arg (Sum.inr ("q"))] [])
        [Val.int 1] [] = .error (.keyError k) :=
  C4_missing_binding ( autopartial rawReturn) [Val.arg (Sum.inr ("q"))] []
    [Val.int 1] [] (by rfl) (by rfl)

/-- C5: one placeholder value occurring several times among the captured
positional arguments and keyword values resolves to the same bound value at
every occurrence within one invocation (first conjunct, for occurrences at
two positional slots and at a positional slot and a keyword); in particular
rawReturn wrapped and called as f(_0_, 2, a=_0_, b=_0_) then (145) yields the
positional tuple (145, 2) and the keyword mapping a=145, b=145. -/
theorem C5_placeholder_reuse :
    (∀ (m : Dict) (A : List Val) (K : KwArgs) (ra : List Val) (rk : KwArgs)
       (i j : Nat) (s : String) (k : Key),
       resolveArgs m A = .ok ra → resolveKwargs m K = .ok rk →
       ((posGet i A = some (Val.arg k) → posGet j A = some (Val.arg k) →
           posGet i ra = posGet j ra) ∧
        (posGet i A = some (Val.arg k) → kwGet s K = some (Val.arg k) →
           ∃ v, substArg m (Val.arg k) = .ok v ∧
             posGet i ra = some v ∧ kwGet s rk = some v))) ∧
    callWrapped ( autopartial rawReturn)
        [Val.arg (Sum.inl 0), Val.int 2]
        [(("a"), Val.arg (Sum.inl 0)), (("b"), Val.arg (Sum.inl 0))] =
      .ok (.deferred (.closure ( autopartial rawReturn)
        [Val.arg (Sum.inl 0), Val.int 2]
        [(("a"), Val.arg (Sum.inl 0)), (("b"), Val.arg (Sum.inl 0))])) ∧
    callWrapped (.closure ( autopartial rawReturn)
        [Val.arg (Sum.inl 0), Val.int 2]
        [(("a"), Val.arg (Sum.inl 0)), (("b"), Val.arg (Sum.inl 0))])
        [Val.int 145] [] =
      .ok (.val (.tup [.tup [Val.int 145, Val.int 2],
                       .dict [(("a"), Val.int 145), (("b"), Val.int 145)]])) := by
  refine ⟨?_, by rfl, by rfl⟩
  intro m A K ra rk i j s k hra hrk
  constructor
  · intro hi hj
    obtain ⟨v, hv, hgi⟩ := resolveArgs_posGet m A ra hra i _ hi
    obtain ⟨w, hw, hgj⟩ := resolveArgs_posGet m A ra hra j _ hj
    rw [hv] at hw
    rw [hgi, hgj]
    exact congrArg some (by injection hw)
  · intro hi hs
    obtain ⟨v, hv, hgi⟩ := resolveArgs_posGet m A ra hra i _ hi
    obtain ⟨w, hw, hgs⟩ := resolveKwargs_kwGet m K rk hrk s _ hs
    rw [hv] at hw
    have hvw : v = w := by injection hw
    exact ⟨v, hv, hgi, by rw [hvw]; exact hgs⟩

/-- C5 witness: the general conjunct instantiated at the captured call
(_0_, 2, a=_0_) resolved against bindings giving 145 for position 0. -/
theorem C5_witness :
    ((posGet 0 [Val.arg (Sum.inl 0), Val.int 2] = some (Val.arg (Sum.inl 0)) →
        posGet 0 [Val.arg (Sum.inl 0), Val.int 2] = some (Val.arg (Sum.inl 0)) →
        posGet 0 [Val.int 145, Val.int 2] = posGet 0 [Val.int 145, Val.int 2]) ∧
     (posGet 0 [Val.arg (Sum.inl 0), Val.int 2] = some (Val.arg (Sum.inl 0)) →
        kwGet ("a") [(("a"), Val.arg (Sum.inl 0))] = some (Val.arg (Sum.inl 0)) →
        ∃ v, substArg [(Sum.inl 0, Val.int 145)] (Val.arg (Sum.inl 0)) = .ok v ∧
          posGet 0 [Val.int 145, Val.int 2] = some v ∧
          kwGet ("a") [(("a"), Val.int 145)] = some v)) :=
  C5_placeholder_reuse.1 [(Sum.inl 0, Val.int 145)]
    [Val.arg (Sum.inl 0), Val.int 2] [(("a"), Val.arg (Sum.inl 0))]
    [Val.int 145, Val.int 2] [(("a"), Val.int 145)]
    0 0 ("a") (Sum.inl 0) (by rfl) (by rfl)

/-- C6: renaming both positional slots of power to named placeholders and
then re-binding those named slots back to positional placeholders composes:
the final callable applied to (3, 2) returns 9, the same value power itself
returns on (3, 2). -/
theorem C6_roundtrip_rename :
    callWrapped ( autopartial power)
        [Val.arg (Sum.inr ("base")), Val.arg (Sum.inr ("exponent"))] [] =
      .ok (.deferred (.closure ( autopartial power)
        [Val.arg (Sum.inr ("base")), Val.arg (Sum.inr ("exponent"))] [])) ∧
    callWrapped (.closure ( autopartial power)
        [Val.arg (Sum.inr ("base")), Val.arg (Sum.inr ("exponent"))] [])
        [] [(("base"), Val.arg (Sum.inl 0)), (("exponent"), Val.arg (Sum.inl 1))] =
      .ok (.deferred (.closure
        (.closure ( autopartial power)
          [Val.arg (Sum.inr ("base")), Val.arg (Sum.inr ("exponent"))] [])
        [] [(("base"), Val.arg (Sum.inl 0)), (("exponent"), Val.arg (Sum.inl 1))])) ∧
    callWrapped (.closure
        (.closure ( autopartial power)
          [Val.arg (Sum.inr ("base")), Val.arg (Sum.inr ("exponent"))] [])
        [] [(("base"), Val.arg (Sum.inl 0)), (("exponent"), Val.arg (Sum.inl 1))])
        [Val.int 3, Val.int 2] [] =
      .ok (.val (.int 9)) ∧
    power [Val.int 3, Val.int 2] [] = .ok (.int 9) := by
  refine ⟨by rfl, by rfl, ?_, by rfl⟩
  rfl

/-- C7: any error raised by the underlying target at final invocation —
whether on the immediate-dispatch path or at the bottom of a deferred
callable's dispatch after successful resolution — reaches the caller as
exactly the same error value. -/
theorem C7_error_passthrough :
    (∀ (f : BaseFn) (args : List Val) (kwargs : KwArgs) (e : Err),
       hasPlaceholder args kwargs = false → f args kwargs = .error e →
       callWrapped ( autopartial f) args kwargs = .error e) ∧
    (∀ (t : Target) (A : List Val) (K : KwArgs) (nargs : List Val) (nkw : KwArgs)
       (ra : List Val) (rk : KwArgs) (e : Err),
       hasPlaceholder nargs nkw = false →
       resolveArgs (all_args nargs nkw) A = .ok ra →
       resolveKwargs (all_args nargs nkw) K = .ok rk →
       callTarget t ra rk = .error e →
       callWrapped (.closure t A K) nargs nkw = .error e) := by
  constructor
  · intro f args kwargs e h hf
    rw [callWrapped, h]
    show (match callTarget ( autopartial f) args kwargs with
          | .ok v => Except.ok (Res.val v)
          | .error e => Except.error e) = Except.error e
    have : callTarget ( autopartial f) args kwargs = .error e := hf
    rw [this]
  · intro t A K nargs nkw ra rk e h hra hrk he
    rw [callWrapped, h]
    show (match callTarget (.closure t A K) nargs nkw with
          | .ok v => Except.ok (Res.val v)
          | .error e => Except.error e) = Except.error e
    rw [callTarget, hra, hrk]
    show (match callTarget t ra rk with
          | .ok v => Except.ok (Res.val v)
          | .error e => Except.error e) = Except.error e
    rw [he]

/-- C7 witness: a target that raises does so through the immediate path and
through a deferred callable's final dispatch, the error value unchanged. -/
theorem C7_witness :
    callWrapped ( autopartial alwaysBoom) [Val.int 1] [] =
      .error (.userError ("boom")) ∧
    callWrapped (.closure ( autopartial alwaysBoom) [Val.arg (Sum.inl 0)] [])
        [Val.int 5] [] = .error (.userError ("boom")) :=
  ⟨C7_error_passthrough.1 alwaysBoom [Val.int 1] [] (.userError ("boom"))
      (by rfl) (by rfl),
   C7_error_passthrough.2 ( autopartial alwaysBoom) [Val.arg (Sum.inl 0)] []
      [Val.int 5] [] [Val.int 5] [] (.userError ("boom"))
      (by rfl) (by rfl) (by rfl) (by rfl)⟩

/-- C8: invoking a deferred callable does not change its captured pending
call: the body of new_f, threaded through its environment statement by
statement, returns the environment it received (first conjunct), its result
component is exactly the dispatch semantics (second conjunct), and a second
invocation performed on the environment left by a first invocation is the
same as a fresh invocation with its own bindings (third conjunct). -/
theorem C8_no_mutation (t : Target) (A : List Val) (K : KwArgs)
    (n1 : List Val) (k1 : KwArgs) (n2 : List Val) (k2 : KwArgs) :
    (new_f t A K n1 k1).2 = (t, A, K) ∧
    (new_f t A K n1 k1).1 = callTarget (.closure t A K) n1 k1 ∧
    new_f (new_f t A K n1 k1).2.1 (new_f t A K n1 k1).2.2.1
        (new_f t A K n1 k1).2.2.2 n2 k2 = new_f t A K n2 k2 :=
  ⟨rfl, rfl, rfl⟩

/-- C9: placeholder detection is shallow: whenever no top-level positional
argument and no top-level keyword value is itself an _Arg instance — even if
placeholders sit nested inside container arguments — the call takes the
immediate-dispatch path and the target receives the arguments exactly as
supplied, nested placeholders unresolved. -/
theorem C9_shallow_detection (f : BaseFn) (args : List Val) (kwargs : KwArgs)
    (hargs : args.all (fun a => !isArg a) = true)
    (hkw : kwargs.all (fun p => !isArg p.2) = true) :
    hasPlaceholder args kwargs = false ∧
    callWrapped ( autopartial f) args kwargs = (f args kwargs).map Res.val := by
  have h1 : args.any isArg = false := by
    cases hq : args.any isArg with
    | false => rfl
    | true =>
      obtain ⟨x, hx, hpx⟩ := List.any_eq_true.mp hq
      have hall := List.all_eq_true.mp hargs x hx
      simp [hpx] at hall
  have h2 : kwargs.any (fun p => isArg p.2) = false := by
    cases hq : kwargs.any (fun p => isArg p.2) with
    | false => rfl
    | true =>
      obtain ⟨x, hx, hpx⟩ := List.any_eq_true.mp hq
      have hall := List.all_eq_true.mp hkw x hx
      simp [hpx] at hall
  have hnp : hasPlaceholder args kwargs = false := by
    simp [hasPlaceholder, h1, h2]
  refine ⟨hnp, ?_⟩
  rw [callWrapped, hnp]
  show (match callTarget ( autopartial f) args kwargs with
        | .ok v => Except.ok (Res.val v)
        | .error e => Except.error e) = _
  cases hr : f args kwargs with
  | ok v => simp [callTarget, autopartial, hr, Except.map]
  | error e => simp [callTarget, autopartial, hr, Except.map]

/-- C9 witness: a placeholder nested inside a tuple argument does not defer;
the target receives the container with the placeholder unresolved. -/
theorem C9_witness :
    hasPlaceholder [Val.tup [Val.arg (Sum.inl 0)]] [] = false ∧
    callWrapped ( autopartial rawReturn) [Val.tup [Val.arg (Sum.inl 0)]] [] =
      (rawReturn [Val.tup [Val.arg (Sum.inl 0)]] []).map Res.val :=
  C9_shallow_detection rawReturn [Val.tup [Val.arg (Sum.inl 0)]] []
    (by rfl) (by rfl)

/-- C10: when every captured placeholder is covered by the new call's
bindings, the deferred dispatch goes through with no error from the binder,
no matter how many extra positional or keyword arguments the resolving call
supplies: the target receives exactly as many positional arguments as were
captured and exactly the captured keyword keys. -/
theorem C10_extra_args_ignored (t : Target) (A : List Val) (K : KwArgs)
    (nargs : List Val) (nkw : KwArgs)
    (hconc : hasPlaceholder nargs nkw = false)
    (hbound : allBound (all_args nargs nkw) A K = true) :
    ∃ ra rk, resolveArgs (all_args nargs nkw) A = .ok ra ∧
      resolveKwargs (all_args nargs nkw) K = .ok rk ∧
      ra.length = A.length ∧
      rk.map Prod.fst = K.map Prod.fst ∧
      callWrapped (.closure t A K) nargs nkw = (callTarget t ra rk).map Res.val := by
  have hA : A.all (argBound (all_args nargs nkw)) = true := by
    simp only [allBound, Bool.and_eq_true] at hbound
    exact hbound.1
  have hK : K.all (fun p => argBound (all_args nargs nkw) p.2) = true := by
    simp only [allBound, Bool.and_eq_true] at hbound
    exact hbound.2
  obtain ⟨ra, hra, hlen⟩ := resolveArgs_ok_of_all _ A hA
  obtain ⟨rk, hrk, hkeys⟩ := resolveKwargs_ok_of_all _ K hK
  refine ⟨ra, rk, hra, hrk, hlen, hkeys, ?_⟩
  rw [callWrapped, hconc]
  show (match callTarget (.closure t A K) nargs nkw with
        | .ok v => Except.ok (Res.val v)
        | .error e => Except.error e) = _
  rw [callTarget, hra, hrk]
  show (match callTarget t ra rk with
        | .ok v => Except.ok (Res.val v)
        | .error e => Except.error e) = _
  cases hr : callTarget t ra rk with
  | ok v => simp [hr, Except.map]
  | error e => simp [hr, Except.map]

/-- C10 witness: one captured positional placeholder, resolved by a call
supplying three positional and one keyword argument: the two extra positional
arguments and the unused keyword are ignored, the target gets one positional
argument and the one captured keyword key. -/
theorem C10_witness :
    ∃ ra rk,
      resolveArgs (all_args [Val.int 1, Val.int 2, Val.int 3]
        [(("z"), Val.int 9)]) [Val.arg (Sum.inl 0)] = .ok ra ∧
      resolveKwargs (all_args [Val.int 1, Val.int 2, Val.int 3]
        [(("z"), Val.int 9)]) [(("a"), Val.int 7)] = .ok rk ∧
      ra.length = [Val.arg (Sum.inl 0)].length ∧
      rk.map Prod.fst = [(("a"), Val.int 7)].map Prod.fst ∧
      callWrapped (.closure ( autopartial rawReturn)
          [Val.arg (Sum.inl 0)] [(("a"), Val.int 7)])
          [Val.int 1, Val.int 2, Val.int 3] [(("z"), Val.int 9)] =
        (callTarget ( autopartial rawReturn) ra rk).map Res.val :=
  C10_extra_args_ignored ( autopartial rawReturn)
    [Val.arg (Sum.inl 0)] [(("a"), Val.int 7)]
    [Val.int 1, Val.int 2, Val.int 3] [(("z"), Val.int 9)]
    (by rfl) (by rfl)
